import Mathlib

/-!
# Verification of the racon BAM batch reader (`src/src/bam_parser.cpp`)

Shallow embedding of `racon::BamParser<Overlap>`: the decoded alignment
record (as exposed by the external htslib decoder), the `Overlap` tuple the
parser constructs, and the `parse` / `reset` state machine, followed by
theorems settling the specification claims.

Machine integers are modelled as `Nat` / `Int` with explicit `% 2^32`
truncation where the C++ code narrows to `uint32_t`.
-/

namespace Racon

/-- BAM flag bit for an unmapped read (`BAM_FUNMAP`). -/
def BAM_FUNMAP : Nat := 4

/-- BAM flag bit for a secondary alignment (`BAM_FSECONDARY`). -/
def BAM_FSECONDARY : Nat := 256

/-- BAM flag bit for a supplementary alignment (`BAM_FSUPPLEMENTARY`). -/
def BAM_FSUPPLEMENTARY : Nat := 2048

/-- One decoded alignment record, as the htslib decoder exposes it to the
parser loop body: `core.flag`, `core.l_qname` (name length including the
terminator), the name itself, `core.tid`, the 0-based `core.pos`,
`core.qual` (mapping quality), the packed CIGAR as a list of
(length, operation-symbol) pairs, `core.l_qseq`, and the raw quality
byte array (`bam_get_qual`). -/
structure BamRecord where
  flag : Nat
  l_qname : Nat
  q_name : String
  tid : Int
  pos : Int
  core_qual : Nat
  cigar : List (Nat × Char)
  l_qseq : Nat
  qual : List Nat
  deriving DecidableEq, Repr

/-- The tuple handed to the `Overlap` constructor at
`bam_parser.cpp:140-153`, field for field. The C++ sequence pointer is
always `nullptr` here; absent quality is the `nullptr` case, modelled as
`none`. -/
structure Overlap where
  q_name : String
  q_name_length : Nat
  flag : Nat
  t_name : String
  t_name_length : Nat
  t_begin : Nat
  mapping_quality : Nat
  cigar : String
  cigar_length : Nat
  t_next_name : String
  t_next_name_length : Nat
  t_next_begin : Nat
  template_length : Nat
  sequence : Option String
  sequence_length : Nat
  quality : Option String
  quality_length : Nat
  deriving DecidableEq, Repr

instance : Inhabited Overlap :=
  ⟨⟨"", 0, 0, "", 0, 0, 0, "", 0, "", 0, 0, 0, none, 0, none, 0⟩⟩

/-- The filter at `bam_parser.cpp:97`:
`(flag & BAM_FUNMAP) || (flag & BAM_FSECONDARY) || (flag & BAM_FSUPPLEMENTARY)`. -/
def filteredOut (r : BamRecord) : Bool :=
  decide (r.flag.land BAM_FUNMAP ≠ 0) || decide (r.flag.land BAM_FSECONDARY ≠ 0) ||
    decide (r.flag.land BAM_FSUPPLEMENTARY ≠ 0)

/-- A record that passes the filter (primary, mapped). -/
def acceptedRec (r : BamRecord) : Bool := !filteredOut r

/-- The CIGAR string construction loop at `bam_parser.cpp:116-121`:
starting from the empty string, append the decimal length then the
operation character of each packed CIGAR entry in order. -/
def cigarString (ops : List (Nat × Char)) : String :=
  ops.foldl (fun acc p => acc ++ toString p.1 ++ p.2.toString) ""

/-- The quality reconstruction loop body at `bam_parser.cpp:130-133`:
one character per query-sequence position, each the raw byte plus 33,
narrowed by the `char` cast to 8 bits. -/
def qualityChars (qual : List Nat) (l_qseq : Nat) : List Char :=
  (List.range l_qseq).map (fun i => Char.ofNat ((qual.getD i 0 + 33) % 256))

/-- The header name-table access `header_->target_name[core.tid]` at
`bam_parser.cpp:106`. The C++ code performs no bounds check; the
out-of-range branch (`none`) marks the undefined access. -/
def lookupTarget (names : List String) (tid : Int) : Option String :=
  if 0 ≤ tid ∧ tid.toNat < names.length then some (names.getD tid.toNat "") else none

/-- The conversion of one accepted record into an `Overlap`
(`bam_parser.cpp:101-153`). `none` marks the two unchecked accesses of the
C++ code going out of range: the name-table index and the read of
`qual[0]` on an empty quality array. -/
def convert (names : List String) (r : BamRecord) : Option Overlap :=
  match lookupTarget names r.tid, r.qual.head? with
  | some t_name, some q0 =>
    let cigar_str := cigarString r.cigar
    let quality_str : String :=
      if q0 = 255 then "" else String.mk (qualityChars r.qual r.l_qseq)
    some {
      q_name := r.q_name
      q_name_length := (r.l_qname + (2 ^ 32 - 1)) % 2 ^ 32
      flag := r.flag
      t_name := t_name
      t_name_length := t_name.length
      t_begin := ((r.pos + 1) % 2 ^ 32).toNat
      mapping_quality := r.core_qual
      cigar := cigar_str
      cigar_length := cigar_str.length % 2 ^ 32
      t_next_name := "*"
      t_next_name_length := 1
      t_next_begin := 0
      template_length := 0
      sequence := none
      sequence_length := r.l_qseq
      quality := if quality_str.isEmpty then none else some quality_str
      quality_length := quality_str.length }
  | _, _ => none

/-- The approximate byte cost accumulated at `bam_parser.cpp:159-160`:
`q_name_length + t_name_length + cigar_str.length() + sequence_length +
quality_str.length() + 100`. -/
def costOf (o : Overlap) : Nat :=
  o.q_name_length + o.t_name_length + o.cigar.length + o.sequence_length +
    o.quality_length + 100

/-- Result of one run of the `while (sam_read1(...))` loop: the value
`parse` returns, the destination after the appends, the records left
unread in the stream, the per-call accepted-record counter
(`num_objects`), and whether the loop ran off the end of the stream
(which sets `is_eof_`). -/
structure ParseOutcome where
  retval : Bool
  dst : List Overlap
  rest : List BamRecord
  num_objects : Nat
  hit_eof : Bool
  deriving DecidableEq, Repr

/-- The `while (sam_read1(file_, header_, alignment_) >= 0)` loop of
`bam_parser.cpp:93-168`, one record per step. `none` propagates an
undefined access inside `convert`. -/
def parseLoop (names : List String) (max_bytes : Nat) :
    List BamRecord → List Overlap → Nat → Nat → Option ParseOutcome
  | [], dst, _, num_objects => some ⟨decide (0 < num_objects), dst, [], num_objects, true⟩
  | r :: rest, dst, current_bytes, num_objects =>
    if filteredOut r then
      parseLoop names max_bytes rest dst current_bytes num_objects
    else
      match convert names r with
      | none => none
      | some o =>
        if max_bytes ≤ current_bytes + costOf o then
          some ⟨true, dst ++ [o], rest, num_objects + 1, false⟩
        else
          parseLoop names max_bytes rest (dst ++ [o]) (current_bytes + costOf o)
            (num_objects + 1)

/-- The mutable state of a `BamParser<Overlap>`: the header name table and
the record content the file at `path_` yields when (re)opened, the records
not yet consumed from the open stream, `num_objects_read_`, and
`is_eof_`. -/
structure BamParserState where
  fileNames : List String
  fileContent : List BamRecord
  stream : List BamRecord
  num_objects_read : Nat
  is_eof : Bool
  deriving DecidableEq, Repr

/-- The constructor `BamParser(path)` (`bam_parser.cpp:15-41`) after a
successful open: header read, whole stream ahead, counter zero, not at
end of stream. -/
def construct (names : List String) (content : List BamRecord) : BamParserState :=
  ⟨names, content, content, 0, false⟩

/-- `BamParser::reset` (`bam_parser.cpp:55-81`): close and reopen the same
path, re-read the header, zero the counter, clear `is_eof_`. -/
def reset (s : BamParserState) : BamParserState :=
  ⟨s.fileNames, s.fileContent, s.fileContent, 0, false⟩

/-- `BamParser::parse(dst, max_bytes)` (`bam_parser.cpp:83-169`): early
return `false` when `is_eof_` is already set, otherwise run the read loop
and commit its outcome to the state. -/
def parse (s : BamParserState) (dst : List Overlap) (max_bytes : Nat) :
    Option (Bool × List Overlap × BamParserState) :=
  if s.is_eof then some (false, dst, s)
  else
    match parseLoop s.fileNames max_bytes s.stream dst 0 0 with
    | none => none
    | some out =>
      some (out.retval, out.dst,
        { s with
            stream := out.rest
            num_objects_read := s.num_objects_read + out.num_objects
            is_eof := out.hit_eof })

/-- A sequence of `parse` calls, each into a fresh destination, collecting
the (return value, appended overlaps) observations. -/
def runSeq : List Nat → BamParserState → Option (List (Bool × List Overlap) × BamParserState)
  | [], s => some ([], s)
  | mb :: mbs, s =>
    match parse s [] mb with
    | none => none
    | some (ret, out, s') =>
      match runSeq mbs s' with
      | none => none
      | some (outs, sf) => some ((ret, out) :: outs, sf)

/-- A concrete primary mapped record: flag 0, name "abc" (`l_qname` 4 with
the terminator), reference id 0, 0-based position 99, mapping quality 60,
CIGAR 4M2I10M, sequence length 3, quality bytes 33,34,35. -/
def exRecord : BamRecord :=
  ⟨0, 4, "abc", 0, 99, 60, [(4, 'M'), (2, 'I'), (10, 'M')], 3, [33, 34, 35]⟩

/-- A concrete unmapped record (flag `BAM_FUNMAP`). -/
def exUnmapped : BamRecord := ⟨4, 2, "u", 0, 0, 0, [], 0, [255]⟩

/-- A concrete header name table with a single target name. -/
def exNames : List String := ["tgt"]

/-- The overlap produced from `exRecord`. -/
def exOverlap : Overlap := (convert exNames exRecord).getD default

/-- A concrete accepted record whose sole raw quality byte is 223, so that
223 + 33 = 256 overflows the `char` narrowing. -/
def exRecord223 : BamRecord := ⟨0, 4, "abc", 0, 0, 60, [], 1, [223]⟩

/-- A concrete parser state whose stream is `exUnmapped, exRecord`. -/
def exState : BamParserState := construct exNames [exUnmapped, exRecord]

/-- A second concrete primary mapped record: name "xy", position 5,
mapping quality 7, CIGAR 2M, sequence length 2, quality bytes 40, 41. -/
def exRecord2 : BamRecord := ⟨0, 3, "xy", 0, 5, 7, [(2, 'M')], 2, [40, 41]⟩

/-- The overlap produced from `exRecord2`. -/
def exOverlap2 : Overlap := (convert exNames exRecord2).getD default

/-- A concrete parser state whose stream holds two accepted records with a
filtered one between them and a further record after them:
`exRecord, exUnmapped, exRecord2, exRecord`. -/
def exState2 : BamParserState :=
  construct exNames [exRecord, exUnmapped, exRecord2, exRecord]

/-- A concrete parser state already past end of stream. -/
def exExhausted : BamParserState := ⟨exNames, [exRecord], [exRecord], 5, true⟩

theorem length_filterMap_of_isSome {α β : Type} (f : α → Option β) (l : List α)
    (h : ∀ a ∈ l, (f a).isSome) : (l.filterMap f).length = l.length := by
  induction l with
  | nil => simp
  | cons a l ih =>
    rcases hfa : f a with _ | b
    · exact absurd (h a (List.mem_cons_self a l)) (by simp [hfa])
    · simp only [List.filterMap_cons, hfa, List.length_cons]
      rw [ih (fun x hx => h x (List.mem_cons_of_mem a hx))]

theorem convert_fields {names : List String} {r : BamRecord} {o : Overlap}
    (h : convert names r = some o) :
    0 ≤ r.tid ∧ r.tid.toNat < names.length ∧ r.qual ≠ [] ∧
    o.q_name = r.q_name ∧
    o.q_name_length = (r.l_qname + (2 ^ 32 - 1)) % 2 ^ 32 ∧
    o.flag = r.flag ∧
    o.t_name = names.getD r.tid.toNat "" ∧
    o.t_begin = ((r.pos + 1) % 2 ^ 32).toNat ∧
    o.mapping_quality = r.core_qual ∧
    o.cigar = cigarString r.cigar ∧
    o.sequence_length = r.l_qseq ∧
    (r.qual.headD 0 = 255 → o.quality = none ∧ o.quality_length = 0) ∧
    (r.qual.headD 0 ≠ 255 →
      o.quality_length = r.l_qseq ∧
      o.quality.getD "" = String.mk (qualityChars r.qual r.l_qseq)) := by
  unfold convert at h
  split at h
  case h_2 => cases h
  case h_1 t_name q0 heq1 heq2 =>
    have hqual : r.qual ≠ [] := by
      intro hnil
      rw [hnil] at heq2
      cases heq2
    have hheadD : r.qual.headD 0 = q0 := by
      rw [List.headD_eq_head?_getD, heq2, Option.getD_some]
    unfold lookupTarget at heq1
    split at heq1
    case isFalse => cases heq1
    case isTrue hcond =>
      have htn : t_name = names.getD r.tid.toNat "" := by
        cases heq1
        rfl
      cases h
      refine ⟨hcond.1, hcond.2, hqual, rfl, rfl, rfl, htn, rfl, rfl, rfl, rfl, ?_, ?_⟩
      · intro hq255
        rw [hheadD] at hq255
        subst hq255
        exact ⟨by simp [String.isEmpty_iff], by simp⟩
      · intro hq255
        rw [hheadD] at hq255
        simp only [if_neg hq255]
        have hlenmk : (String.mk (qualityChars r.qual r.l_qseq)).length =
            (qualityChars r.qual r.l_qseq).length := rfl
        constructor
        · rw [hlenmk]
          simp [qualityChars]
        · by_cases hz : (String.mk (qualityChars r.qual r.l_qseq)).isEmpty
          · simp only [hz, if_pos, Option.getD_none]
            exact ((String.isEmpty_iff _).mp hz).symm
          · simp only [hz]
            simp

theorem convert_isSome {names : List String} {r : BamRecord}
    (h1 : 0 ≤ r.tid) (h2 : r.tid.toNat < names.length) (h3 : r.qual ≠ []) :
    (convert names r).isSome := by
  unfold convert lookupTarget
  rcases hq : r.qual.head? with _ | q0
  · exact absurd (List.head?_eq_none_iff.mp hq) h3
  · rw [if_pos ⟨h1, h2⟩]
    simp

theorem parseLoop_nil (names : List String) (max_bytes : Nat) (dst : List Overlap)
    (cb n : Nat) :
    parseLoop names max_bytes [] dst cb n = some ⟨decide (0 < n), dst, [], n, true⟩ := rfl

theorem parseLoop_cons_filtered {r : BamRecord} (hf : filteredOut r = true)
    (names : List String) (max_bytes : Nat) (rest : List BamRecord)
    (dst : List Overlap) (cb n : Nat) :
    parseLoop names max_bytes (r :: rest) dst cb n =
      parseLoop names max_bytes rest dst cb n := by
  simp [parseLoop, hf]

theorem parseLoop_cons_stop {names : List String} {r : BamRecord} {o : Overlap}
    (hf : filteredOut r = false) (hc : convert names r = some o)
    {max_bytes cb : Nat} (hb : max_bytes ≤ cb + costOf o)
    (rest : List BamRecord) (dst : List Overlap) (n : Nat) :
    parseLoop names max_bytes (r :: rest) dst cb n =
      some ⟨true, dst ++ [o], rest, n + 1, false⟩ := by
  simp [parseLoop, hf, hc, hb]

theorem parseLoop_cons_go {names : List String} {r : BamRecord} {o : Overlap}
    (hf : filteredOut r = false) (hc : convert names r = some o)
    {max_bytes cb : Nat} (hb : ¬ max_bytes ≤ cb + costOf o)
    (rest : List BamRecord) (dst : List Overlap) (n : Nat) :
    parseLoop names max_bytes (r :: rest) dst cb n =
      parseLoop names max_bytes rest (dst ++ [o]) (cb + costOf o) (n + 1) := by
  simp [parseLoop, hf, hc, hb]

theorem parseLoop_shape (names : List String) (max_bytes : Nat)
    (stream : List BamRecord) :
    ∀ (dst : List Overlap) (cb n : Nat),
      (∀ r ∈ stream, acceptedRec r = true → (convert names r).isSome) →
      ∃ consumed rest out,
        stream = consumed ++ rest ∧
        parseLoop names max_bytes stream dst cb n = some out ∧
        out.dst = dst ++ (consumed.filter acceptedRec).filterMap (convert names) ∧
        out.num_objects = n + (consumed.filter acceptedRec).length ∧
        out.rest = rest := by
  induction stream with
  | nil =>
    intro dst cb n _
    exact ⟨[], [], ⟨decide (0 < n), dst, [], n, true⟩, by simp, rfl, by simp, by simp, rfl⟩
  | cons r rest ih =>
    intro dst cb n wf
    by_cases hf : filteredOut r = true
    · obtain ⟨consumed, rest', out, hsplit, heq, hdst, hnum, hrest⟩ :=
        ih dst cb n (fun x hx => wf x (List.mem_cons_of_mem r hx))
      refine ⟨r :: consumed, rest', out, by rw [List.cons_append, ← hsplit],
        ?_, ?_, ?_, hrest⟩
      · rw [parseLoop_cons_filtered hf, heq]
      · rw [hdst]
        simp [List.filter_cons, acceptedRec, hf]
      · rw [hnum]
        simp [List.filter_cons, acceptedRec, hf]
    · rw [Bool.not_eq_true] at hf
      have hsome := wf r (List.mem_cons_self r rest) (by simp [acceptedRec, hf])
      rcases hc : convert names r with _ | o
      · rw [hc] at hsome
        cases hsome
      · by_cases hb : max_bytes ≤ cb + costOf o
        · refine ⟨[r], rest, ⟨true, dst ++ [o], rest, n + 1, false⟩, by simp, ?_, ?_, ?_, rfl⟩
          · exact parseLoop_cons_stop hf hc hb rest dst n
          · simp [List.filter_cons, acceptedRec, hf, hc]
          · simp [List.filter_cons, acceptedRec, hf]
        · obtain ⟨consumed, rest', out, hsplit, heq, hdst, hnum, hrest⟩ :=
            ih (dst ++ [o]) (cb + costOf o) (n + 1)
              (fun x hx => wf x (List.mem_cons_of_mem r hx))
          refine ⟨r :: consumed, rest', out, by rw [List.cons_append, ← hsplit],
            ?_, ?_, ?_, hrest⟩
          · rw [parseLoop_cons_go hf hc hb, heq]
          · rw [hdst]
            simp [List.filter_cons, acceptedRec, hf, hc]
          · rw [hnum]
            simp [List.filter_cons, acceptedRec, hf]
            omega

theorem parseLoop_budget_reached (names : List String) {max_bytes : Nat}
    {r : BamRecord} {o : Overlap} (hr : filteredOut r = false)
    (hc : convert names r = some o) (rest : List BamRecord)
    (pre : List BamRecord) :
    ∀ (dst : List Overlap) (cb n : Nat),
      (∀ x ∈ pre, acceptedRec x = true → (convert names x).isSome) →
      ((pre.filter acceptedRec).filterMap (convert names) = [] ∨
        cb + (((pre.filter acceptedRec).filterMap (convert names)).map costOf).sum
          < max_bytes) →
      max_bytes ≤
        cb + (((pre.filter acceptedRec).filterMap (convert names)).map costOf).sum
          + costOf o →
      parseLoop names max_bytes (pre ++ r :: rest) dst cb n =
        some ⟨true,
          dst ++ (pre.filter acceptedRec).filterMap (convert names) ++ [o], rest,
          n + (pre.filter acceptedRec).length + 1, false⟩ := by
  induction pre with
  | nil =>
    intro dst cb n _ _ hge
    simp only [List.filter_nil, List.filterMap_nil, List.map_nil, List.sum_nil,
      List.length_nil] at hge ⊢
    rw [List.nil_append]
    simpa using parseLoop_cons_stop hr hc (by omega) rest dst n
  | cons p pre ih =>
    intro dst cb n wf hlt hge
    by_cases hp : filteredOut p = true
    · have hfc : (p :: pre).filter acceptedRec = pre.filter acceptedRec :=
        List.filter_cons_of_neg (by simp [acceptedRec, hp])
      rw [hfc] at hlt hge ⊢
      rw [List.cons_append, parseLoop_cons_filtered hp,
        ih dst cb n (fun x hx => wf x (List.mem_cons_of_mem p hx)) hlt hge]
    · rw [Bool.not_eq_true] at hp
      have hsome := wf p (List.mem_cons_self p pre) (by simp [acceptedRec, hp])
      rcases hcp : convert names p with _ | po
      · rw [hcp] at hsome
        cases hsome
      · have hfc : (p :: pre).filter acceptedRec = p :: pre.filter acceptedRec :=
          List.filter_cons_of_pos (by simp [acceptedRec, hp])
        rw [hfc] at hlt hge ⊢
        rw [List.filterMap_cons_some hcp] at hlt hge ⊢
        simp only [List.map_cons, List.sum_cons, List.length_cons] at hlt hge ⊢
        have hlt' : cb + (costOf po +
            (((pre.filter acceptedRec).filterMap (convert names)).map costOf).sum)
              < max_bytes := by
          rcases hlt with hnil | hlt
          · cases hnil
          · exact hlt
        have hb : ¬ max_bytes ≤ cb + costOf po := by omega
        have hnat : n + ((pre.filter acceptedRec).length + 1) + 1 =
            n + 1 + (pre.filter acceptedRec).length + 1 := by omega
        have hlist : dst ++ po :: (pre.filter acceptedRec).filterMap (convert names)
              ++ [o] =
            (dst ++ [po]) ++ (pre.filter acceptedRec).filterMap (convert names)
              ++ [o] := by
          simp
        rw [hnat, hlist, List.cons_append, parseLoop_cons_go hp hcp hb]
        exact ih (dst ++ [po]) (cb + costOf po) (n + 1)
          (fun x hx => wf x (List.mem_cons_of_mem p hx))
          (Or.inr (by omega)) (by omega)

theorem parseLoop_complete (names : List String) (max_bytes : Nat)
    (stream : List BamRecord) :
    ∀ (dst : List Overlap) (cb n : Nat),
      (∀ r ∈ stream, acceptedRec r = true → (convert names r).isSome) →
      cb + (((stream.filter acceptedRec).filterMap (convert names)).map costOf).sum
        < max_bytes →
      parseLoop names max_bytes stream dst cb n =
        some ⟨decide (0 < n + (stream.filter acceptedRec).length),
          dst ++ (stream.filter acceptedRec).filterMap (convert names), [],
          n + (stream.filter acceptedRec).length, true⟩ := by
  induction stream with
  | nil =>
    intro dst cb n _ _
    simp [parseLoop_nil]
  | cons r rest ih =>
    intro dst cb n wf hcost
    by_cases hf : filteredOut r = true
    · have hfc : (r :: rest).filter acceptedRec = rest.filter acceptedRec :=
        List.filter_cons_of_neg (by simp [acceptedRec, hf])
      rw [hfc] at hcost ⊢
      rw [parseLoop_cons_filtered hf,
        ih dst cb n (fun x hx => wf x (List.mem_cons_of_mem r hx)) hcost]
    · rw [Bool.not_eq_true] at hf
      have hsome := wf r (List.mem_cons_self r rest) (by simp [acceptedRec, hf])
      rcases hc : convert names r with _ | o
      · rw [hc] at hsome
        cases hsome
      · have hfc : (r :: rest).filter acceptedRec = r :: rest.filter acceptedRec :=
          List.filter_cons_of_pos (by simp [acceptedRec, hf])
        rw [hfc] at hcost ⊢
        rw [List.filterMap_cons_some hc] at hcost ⊢
        simp only [List.map_cons, List.sum_cons, List.length_cons] at hcost ⊢
        have hb : ¬ max_bytes ≤ cb + costOf o := by omega
        have harr : n + ((rest.filter acceptedRec).length + 1) =
            n + 1 + (rest.filter acceptedRec).length := by omega
        simp only [harr]
        have hl : dst ++ o :: List.filterMap (convert names) (rest.filter acceptedRec) =
            (dst ++ [o]) ++ List.filterMap (convert names) (rest.filter acceptedRec) := by
          simp
        rw [hl, parseLoop_cons_go hf hc hb]
        exact ih (dst ++ [o]) (cb + costOf o) (n + 1)
          (fun x hx => wf x (List.mem_cons_of_mem r hx)) (by omega)

theorem cigarString_go (ops : List (Nat × Char)) (acc : String) :
    ops.foldl (fun a p => a ++ toString p.1 ++ p.2.toString) acc =
      acc ++ cigarString ops := by
  induction ops generalizing acc with
  | nil => simp [cigarString]
  | cons p ops ih =>
    simp only [cigarString, List.foldl_cons]
    rw [ih (acc ++ toString p.1 ++ p.2.toString), ih ("" ++ toString p.1 ++ p.2.toString)]
    simp [String.append_assoc]

theorem cigarString_cons (p : Nat × Char) (ops : List (Nat × Char)) :
    cigarString (p :: ops) = toString p.1 ++ p.2.toString ++ cigarString ops := by
  have h := cigarString_go ops ("" ++ toString p.1 ++ p.2.toString)
  simp only [cigarString, List.foldl_cons] at h ⊢
  rw [h]
  simp [String.append_assoc]

theorem string_join_cons (x : String) (l : List String) :
    String.join (x :: l) = x ++ String.join l := by
  apply String.ext
  simp [String.join_eq]

theorem acceptedRec_land {r : BamRecord} (h : acceptedRec r = true) :
    r.flag.land BAM_FUNMAP = 0 ∧ r.flag.land BAM_FSECONDARY = 0 ∧
      r.flag.land BAM_FSUPPLEMENTARY = 0 := by
  simp only [acceptedRec, filteredOut, Bool.not_eq_true', Bool.or_eq_false_iff,
    decide_eq_false_iff_not, not_not, ne_eq] at h
  exact ⟨h.1.1, h.1.2, h.2⟩

theorem parse_shape (s : BamParserState) (dst : List Overlap) (max_bytes : Nat)
    (hready : s.is_eof = false)
    (wf : ∀ r ∈ s.stream, acceptedRec r = true → (convert s.fileNames r).isSome) :
    ∃ (consumed rest : List BamRecord) (out : ParseOutcome),
      s.stream = consumed ++ rest ∧
      out.dst = dst ++ (consumed.filter acceptedRec).filterMap (convert s.fileNames) ∧
      out.num_objects = (consumed.filter acceptedRec).length ∧
      out.rest = rest ∧
      parse s dst max_bytes = some (out.retval, out.dst,
        { s with
            stream := out.rest
            num_objects_read := s.num_objects_read + out.num_objects
            is_eof := out.hit_eof }) := by
  obtain ⟨consumed, rest, out, hsplit, heq, hdst, hnum, hrest⟩ :=
    parseLoop_shape s.fileNames max_bytes s.stream dst 0 0 wf
  refine ⟨consumed, rest, out, hsplit, hdst, by simpa using hnum, hrest, ?_⟩
  simp only [parse, hready, Bool.false_eq_true, if_false, heq]

theorem filterMap_all_isSome_length (names : List String) (consumed : List BamRecord)
    (h : ∀ r ∈ consumed, acceptedRec r = true → (convert names r).isSome) :
    ((consumed.filter acceptedRec).filterMap (convert names)).length =
      (consumed.filter acceptedRec).length :=
  length_filterMap_of_isSome _ _
    (fun r hr => h r (List.mem_of_mem_filter hr) (List.of_mem_filter hr))

theorem char_toNat_ofNat {n : Nat} (h : n < 256) : (Char.ofNat n).toNat = n := by
  have hv : n.isValidChar := Or.inl (by omega)
  rw [Char.ofNat, dif_pos hv]
  rfl

/-- C2: for every accepted record the packed CIGAR array of
(length, operation-code) pairs is rendered by emitting each pair as the
decimal length immediately followed by the operation symbol, pairs
concatenated in original order with no separators; the packed CIGAR
4M2I10M yields "4M2I10M" and an empty CIGAR yields the empty string. -/
theorem claim_C2 :
    (∀ (names : List String) (r : BamRecord),
      (convert names r).map Overlap.cigar =
        (convert names r).map (fun _ => cigarString r.cigar)) ∧
    (∀ ops : List (Nat × Char),
      cigarString ops =
        String.join (ops.map (fun p => toString p.1 ++ p.2.toString))) ∧
    cigarString [(4, 'M'), (2, 'I'), (10, 'M')] = "4M2I10M" ∧
    cigarString [] = "" := by
  refine ⟨?_, ?_, by decide, rfl⟩
  · intro names r
    rcases h : convert names r with _ | o
    · rfl
    · obtain ⟨_, _, _, _, _, _, _, _, _, hcig, _, _, _⟩ := convert_fields h
      simp [hcig]
  · intro ops
    induction ops with
    | nil => rfl
    | cons p ops ih => rw [cigarString_cons, List.map_cons, string_join_cons, ih]

/-- C3 counterexample: on an accepted record whose single raw quality byte
is 223 (first byte, not the 0xff sentinel), the produced quality character
has code (223 + 33) % 256 = 0, not 223 + 33 = 256 as the claim's
unconditional "plus 33" states. -/
theorem claim_C3_counterexample :
    ((((convert exNames exRecord223).getD default).quality.getD
        "").toList.getD 0 'x').toNat = 0 ∧
    ¬ ((((convert exNames exRecord223).getD default).quality.getD
        "").toList.getD 0 'x').toNat = exRecord223.qual.getD 0 0 + 33 := by
  exact ⟨by decide, by decide⟩

/-- C3 (amended): for every accepted record, if the first raw quality byte
is the 0xff sentinel the output quality is absent regardless of array
length; otherwise the output quality string has length equal to the
query-sequence length field and its i-th character code equals the i-th
raw quality byte plus 33, reduced modulo 256 by the `char` narrowing. -/
theorem claim_C3 {names : List String} {r : BamRecord} {o : Overlap}
    (h : convert names r = some o) :
    (r.qual.headD 0 = 255 → o.quality = none ∧ o.quality_length = 0) ∧
    (r.qual.headD 0 ≠ 255 →
      o.quality_length = r.l_qseq ∧
      ∀ i, i < r.l_qseq →
        ((o.quality.getD "").toList.getD i 'x').toNat =
          (r.qual.getD i 0 + 33) % 256) := by
  obtain ⟨_, _, _, _, _, _, _, _, _, _, _, hsent, hq⟩ := convert_fields h
  refine ⟨hsent, fun hne => ⟨(hq hne).1, fun i hi => ?_⟩⟩
  rw [(hq hne).2]
  have hmk : (String.mk (qualityChars r.qual r.l_qseq)).toList =
      qualityChars r.qual r.l_qseq := rfl
  rw [hmk]
  simp only [qualityChars, List.getD_eq_getElem?_getD, List.getElem?_map,
    List.getElem?_range hi, Option.map_some', Option.getD_some]
  exact char_toNat_ofNat (Nat.mod_lt _ (by omega))

/-- C3 witness: on quality bytes 33, 34, 35 (sequence length 3) the second
output character code is (34 + 33) % 256 = 67, by the amended theorem. -/
theorem claim_C3_witness :
    ((exOverlap.quality.getD "").toList.getD 1 'x').toNat =
      (exRecord.qual.getD 1 0 + 33) % 256 :=
  ((@claim_C3 exNames exRecord exOverlap (by decide)).2 (by decide)).2 1 (by decide)

/-- C4: for every accepted record the extracted fields are: query name
with length `l_qname` minus the implicit terminator, target name resolved
by indexing the header name table with the reference id, target begin
equal to the 0-based position plus one, and mapping quality verbatim. -/
theorem claim_C4 {names : List String} {r : BamRecord} {o : Overlap}
    (h : convert names r = some o)
    (h1 : 1 ≤ r.l_qname) (h2 : r.l_qname < 2 ^ 32)
    (h3 : 0 ≤ r.pos) (h4 : r.pos + 1 < 2 ^ 32) :
    o.q_name = r.q_name ∧
    o.q_name_length = r.l_qname - 1 ∧
    0 ≤ r.tid ∧ r.tid.toNat < names.length ∧
    o.t_name = names.getD r.tid.toNat "" ∧
    (o.t_begin : Int) = r.pos + 1 ∧
    o.mapping_quality = r.core_qual := by
  obtain ⟨ht1, ht2, _, hn, hnl, _, htn, htb, hmq, _, _, _, _⟩ := convert_fields h
  refine ⟨hn, ?_, ht1, ht2, htn, ?_, hmq⟩
  · rw [hnl]
    omega
  · rw [htb]
    omega

/-- C4 witness: at 0-based position 99 the produced target begin is
position plus one, i.e. 100. -/
theorem claim_C4_witness :
    (exOverlap.t_begin : Int) = exRecord.pos + 1 ∧ exOverlap.t_begin = 100 :=
  ⟨(@claim_C4 exNames exRecord exOverlap (by decide) (by decide) (by decide)
      (by decide) (by decide)).2.2.2.2.2.1,
    by decide⟩

/-- C7: once `is_eof_` is set, every `parse` call returns `false`
immediately, reads nothing from the stream, appends nothing to the
destination, and leaves every counter and the whole state unchanged. -/
theorem claim_C7 (s : BamParserState) (dst : List Overlap) (max_bytes : Nat)
    (h : s.is_eof = true) :
    parse s dst max_bytes = some (false, dst, s) := by
  simp [parse, h]

/-- C7 witness: a concrete exhausted state is a fixed point of `parse`. -/
theorem claim_C7_witness :
    parse exExhausted [] 7 = some (false, [], exExhausted) :=
  claim_C7 exExhausted [] 7 rfl

/-- C8: `reset` reopens the stream at the same path and re-reads the
header, zeroes the read counter and clears `end_of_stream`, restoring the
freshly-constructed state exactly, so any call sequence after `reset`
yields the same observations and final state as after construction,
regardless of prior progress. -/
theorem claim_C8 (s : BamParserState) :
    reset s = construct s.fileNames s.fileContent ∧
    (reset s).num_objects_read = 0 ∧
    (reset s).is_eof = false ∧
    (∀ mbs : List Nat,
      runSeq mbs (reset s) = runSeq mbs (construct s.fileNames s.fileContent)) :=
  ⟨rfl, rfl, rfl, fun _ => rfl⟩

/-- C1: during one `parse` call on a ready parser the records actually
read form a prefix `consumed` of the stream; the overlaps appended to the
destination are exactly one per accepted (primary, mapped) record of that
prefix, in order — filtered records (unmapped, secondary, supplementary)
contribute none — and the lifetime `records_read_count` (and with it the
per-call accepted-record counter) grows by exactly the number of accepted
records read. -/
theorem claim_C1 (s : BamParserState) (dst : List Overlap) (max_bytes : Nat)
    (hready : s.is_eof = false)
    (wf : ∀ r ∈ s.stream, acceptedRec r = true → (convert s.fileNames r).isSome) :
    ∃ (consumed rest : List BamRecord) (ret : Bool) (s' : BamParserState),
      s.stream = consumed ++ rest ∧
      parse s dst max_bytes = some (ret,
        dst ++ (consumed.filter acceptedRec).filterMap (convert s.fileNames), s') ∧
      ((consumed.filter acceptedRec).filterMap (convert s.fileNames)).length =
        (consumed.filter acceptedRec).length ∧
      s'.num_objects_read =
        s.num_objects_read + (consumed.filter acceptedRec).length ∧
      s'.stream = rest := by
  obtain ⟨consumed, rest, out, hsplit, hdst, hnum, hrest, heq⟩ :=
    parse_shape s dst max_bytes hready wf
  refine ⟨consumed, rest, out.retval,
    { s with
        stream := out.rest
        num_objects_read := s.num_objects_read + out.num_objects
        is_eof := out.hit_eof }, hsplit, ?_, ?_, ?_, ?_⟩
  · rw [heq, hdst]
  · exact filterMap_all_isSome_length s.fileNames consumed
      (fun r hr hacc => wf r (hsplit ▸ List.mem_append_left rest hr) hacc)
  · simp [hnum]
  · simp [hrest]

/-- C1 witness: a concrete two-record stream (one unmapped, one primary
mapped) with a large budget. -/
theorem claim_C1_witness :
    ∃ (consumed rest : List BamRecord) (ret : Bool) (s' : BamParserState),
      exState.stream = consumed ++ rest ∧
      parse exState [] 1000000 = some (ret,
        [] ++ (consumed.filter acceptedRec).filterMap (convert exState.fileNames), s') ∧
      ((consumed.filter acceptedRec).filterMap (convert exState.fileNames)).length =
        (consumed.filter acceptedRec).length ∧
      s'.num_objects_read =
        exState.num_objects_read + (consumed.filter acceptedRec).length ∧
      s'.stream = rest :=
  claim_C1 exState [] 1000000 (by decide) (by decide)

/-- C5: after each accepted record the approximate byte cost (name
lengths + CIGAR text length + sequence length + quality length + 100) is
added to a running total, and as soon as that total reaches or exceeds
`max_bytes` — at whichever accepted record `r` that happens, after any
number of earlier accepted records — `parse` stops reading right there
and returns `true` with `end_of_stream` still false, having appended
exactly the accepted records read so far (those of the prefix `pre`, then
`r`) and leaving the rest of the stream unread. The hypotheses say the
loop reaches `r`: either nothing was accepted in `pre`, or the running
total over `pre` is still below the budget; the total including `r`'s
cost reaches it. With `max_bytes` not above the first accepted record's
cost (`pre` with no accepted records), exactly one record is appended. -/
theorem claim_C5 (s : BamParserState) (dst : List Overlap) (max_bytes : Nat)
    (pre rest : List BamRecord) (r : BamRecord) (o : Overlap)
    (hready : s.is_eof = false)
    (hstream : s.stream = pre ++ r :: rest)
    (wf : ∀ x ∈ pre, acceptedRec x = true → (convert s.fileNames x).isSome)
    (hr : filteredOut r = false)
    (hc : convert s.fileNames r = some o)
    (hlt : (pre.filter acceptedRec).filterMap (convert s.fileNames) = [] ∨
      (((pre.filter acceptedRec).filterMap (convert s.fileNames)).map costOf).sum
        < max_bytes)
    (hge : max_bytes ≤
      (((pre.filter acceptedRec).filterMap (convert s.fileNames)).map costOf).sum
        + costOf o) :
    parse s dst max_bytes =
      some (true,
        dst ++ (pre.filter acceptedRec).filterMap (convert s.fileNames) ++ [o],
        { s with
            stream := rest
            num_objects_read :=
              s.num_objects_read + ((pre.filter acceptedRec).length + 1)
            is_eof := false }) := by
  simp only [parse, hready, Bool.false_eq_true, if_false]
  rw [hstream, parseLoop_budget_reached s.fileNames hr hc rest pre dst 0 0 wf
    (hlt.imp (fun h => h) (fun h => by omega)) (by omega)]
  simp

/-- C5 witness: on the stream `exRecord, exUnmapped, exRecord2, exRecord`
with budget 150, the running total after the first accepted record
(cost 119) is below the budget and reaches it at the second accepted
record, so `parse` stops right there, returns `true`, appends both
accepted overlaps, leaves the final record unread in the stream, and
leaves `end_of_stream` false. -/
theorem claim_C5_witness :
    parse exState2 [] 150 =
      some (true,
        [] ++ (([exRecord, exUnmapped].filter acceptedRec).filterMap
          (convert exState2.fileNames)) ++ [exOverlap2],
        { exState2 with
            stream := [exRecord]
            num_objects_read :=
              exState2.num_objects_read +
                (([exRecord, exUnmapped].filter acceptedRec).length + 1)
            is_eof := false }) :=
  claim_C5 exState2 [] 150 [exRecord, exUnmapped] [exRecord] exRecord2 exOverlap2
    (by decide) rfl (by decide) (by decide) (by decide) (by decide) (by decide)

/-- C6: if the stream is exhausted before the byte budget is reached,
`parse` sets `end_of_stream` to true and returns `true` exactly when at
least one record was accepted during the call; end of stream is expressed
only through this state boolean and the returned boolean (the embedding
returns an ordinary value, never an exceptional one). -/
theorem claim_C6 (s : BamParserState) (dst : List Overlap) (max_bytes : Nat)
    (hready : s.is_eof = false)
    (wf : ∀ r ∈ s.stream, acceptedRec r = true → (convert s.fileNames r).isSome)
    (hbudget : (((s.stream.filter acceptedRec).filterMap
        (convert s.fileNames)).map costOf).sum < max_bytes) :
    ∃ (ret : Bool) (dst' : List Overlap) (s' : BamParserState),
      parse s dst max_bytes = some (ret, dst', s') ∧
      s'.is_eof = true ∧ s'.stream = [] ∧
      (ret = true ↔ dst' ≠ dst) := by
  have hloop := parseLoop_complete s.fileNames max_bytes s.stream dst 0 0 wf (by omega)
  have hlen := filterMap_all_isSome_length s.fileNames s.stream wf
  refine ⟨decide (0 < 0 + (s.stream.filter acceptedRec).length),
    dst ++ (s.stream.filter acceptedRec).filterMap (convert s.fileNames),
    { s with
        stream := []
        num_objects_read :=
          s.num_objects_read + (0 + (s.stream.filter acceptedRec).length)
        is_eof := true }, ?_, rfl, rfl, ?_⟩
  · simp only [parse, hready, Bool.false_eq_true, if_false, hloop]
  · simp only [decide_eq_true_eq]
    constructor
    · intro hk hEq
      have hlen2 := congrArg List.length hEq
      rw [List.length_append, hlen] at hlen2
      omega
    · intro hne
      rcases Nat.eq_zero_or_pos (s.stream.filter acceptedRec).length with h0 | h0
      · exfalso
        apply hne
        have hfm : (s.stream.filter acceptedRec).filterMap (convert s.fileNames) = [] := by
          rw [← List.length_eq_zero, hlen, h0]
        rw [hfm, List.append_nil]
      · omega

/-- C6 witness: the concrete two-record stream parsed with an unbounded
budget ends the stream and returns `true` with one overlap appended. -/
theorem claim_C6_witness :
    ∃ (ret : Bool) (dst' : List Overlap) (s' : BamParserState),
      parse exState [] 1000000 = some (ret, dst', s') ∧
      s'.is_eof = true ∧ s'.stream = [] ∧
      (ret = true ↔ dst' ≠ []) :=
  claim_C6 exState [] 1000000 (by decide) (by decide) (by decide)

/-- C9: every overlap appended by `parse` carries the record's flag
bitmask verbatim, and in every such flag the unmapped, secondary, and
supplementary bits are all clear. -/
theorem claim_C9 (s : BamParserState) (dst : List Overlap) (max_bytes : Nat)
    (ret : Bool) (dst' : List Overlap) (s' : BamParserState)
    (hready : s.is_eof = false)
    (wf : ∀ r ∈ s.stream, acceptedRec r = true → (convert s.fileNames r).isSome)
    (h : parse s dst max_bytes = some (ret, dst', s')) :
    ∃ tail : List Overlap, dst' = dst ++ tail ∧
      ∀ o ∈ tail,
        (∃ r ∈ s.stream, acceptedRec r = true ∧ convert s.fileNames r = some o ∧
          o.flag = r.flag) ∧
        o.flag.land BAM_FUNMAP = 0 ∧ o.flag.land BAM_FSECONDARY = 0 ∧
        o.flag.land BAM_FSUPPLEMENTARY = 0 := by
  obtain ⟨consumed, rest, out, hsplit, hdst, hnum, hrest, heq⟩ :=
    parse_shape s dst max_bytes hready wf
  rw [heq] at h
  replace h := Option.some.inj h
  rw [Prod.mk.injEq, Prod.mk.injEq] at h
  obtain ⟨-, hdst', -⟩ := h
  refine ⟨(consumed.filter acceptedRec).filterMap (convert s.fileNames),
    by rw [← hdst', hdst], ?_⟩
  intro o ho
  rw [List.mem_filterMap] at ho
  obtain ⟨r, hrmem, hconv⟩ := ho
  have haccr : acceptedRec r = true := List.of_mem_filter hrmem
  have hrs : r ∈ s.stream :=
    hsplit ▸ List.mem_append_left rest (List.mem_of_mem_filter hrmem)
  have hflag : o.flag = r.flag := by
    obtain ⟨_, _, _, _, _, hf, _, _, _, _, _, _, _⟩ := convert_fields hconv
    exact hf
  obtain ⟨hb1, hb2, hb3⟩ := acceptedRec_land haccr
  exact ⟨⟨r, hrs, haccr, hconv, hflag⟩,
    by rw [hflag]; exact hb1, by rw [hflag]; exact hb2, by rw [hflag]; exact hb3⟩

/-- C9 witness: the concrete parse appends one overlap, whose flag is the
record's flag with the three filter bits clear. -/
theorem claim_C9_witness :
    ∃ tail : List Overlap, [exOverlap] = [] ++ tail ∧
      ∀ o ∈ tail,
        (∃ r ∈ exState.stream, acceptedRec r = true ∧
          convert exState.fileNames r = some o ∧ o.flag = r.flag) ∧
        o.flag.land BAM_FUNMAP = 0 ∧ o.flag.land BAM_FSECONDARY = 0 ∧
        o.flag.land BAM_FSUPPLEMENTARY = 0 :=
  claim_C9 exState [] 1000000 true [exOverlap]
    ⟨exNames, [exUnmapped, exRecord], [], 1, true⟩ (by decide) (by decide) (by decide)

/-- C10: the name-table index `header_->target_name[core.tid]` and the
read of `qual[0]` are unchecked in the C++ code; under the precondition
that every accepted record has a reference id that is a valid index into
the header name table and a non-empty quality array, both accesses are in
bounds, the out-of-range (`none`) branches of the embedding are
unreachable, and `parse` always produces a result. -/
theorem claim_C10 (s : BamParserState) (dst : List Overlap) (max_bytes : Nat)
    (hpre : ∀ r ∈ s.stream, acceptedRec r = true →
      0 ≤ r.tid ∧ r.tid.toNat < s.fileNames.length ∧ r.qual ≠ []) :
    (parse s dst max_bytes).isSome = true := by
  by_cases he : s.is_eof
  · simp [parse, he]
  · have wf : ∀ r ∈ s.stream, acceptedRec r = true → (convert s.fileNames r).isSome :=
      fun r hr hacc =>
        have h3 := hpre r hr hacc
        convert_isSome h3.1 h3.2.1 h3.2.2
    obtain ⟨_, _, _, _, _, _, _, heq⟩ :=
      parse_shape s dst max_bytes (by simpa using he) wf
    rw [heq]
    rfl

/-- C10 witness: the precondition holds on the concrete stream and the
concrete parse produces a result. -/
theorem claim_C10_witness : (parse exState [] 5).isSome = true :=
  claim_C10 exState [] 5 (by decide)

end Racon
